import Mathlib

/-!
Verification development for the fastNLP ELMo encoder
(`fastNLP/modules/encoder/_elmo.py`).

The numeric code is shallowly embedded over an arbitrary linearly ordered
field `R`, with the two nonlinearities (`torch.sigmoid`, `torch.tanh`)
passed in as abstract functions: every property verified here is
structural (gate wiring, active-sub-batch bookkeeping, clipping, dropout
plumbing, weight permutation, layer stacking) and holds for any choice of
those functions.  Tensors are embedded as total functions from indices to
`R`; only indices inside the documented shapes are meaningful.
-/

namespace Elmo

/-- The pair of elementwise nonlinearities used by the cell
(`torch.sigmoid` and `torch.tanh` in the source). -/
structure Act (R : Type) where
  sigmoid : R → R
  tanh : R → R

/-- Parameters of one `LstmCellWithProjection`
(`_elmo.py` lines 62-97): sizes, direction flag, the two gate linearities
(`input_linearity` without bias, `state_linearity` with bias), the output
projection (`state_projection`, no bias) and the two optional clip
magnitudes.  A weight matrix `W` is stored row-major:
`W i j` is the coefficient of input coordinate `j` in output coordinate `i`. -/
structure CellParams (R : Type) where
  inputSize : ℕ
  hiddenSize : ℕ
  cellSize : ℕ
  goForward : Bool
  Wi : ℕ → ℕ → R
  Ws : ℕ → ℕ → R
  b : ℕ → R
  Wp : ℕ → ℕ → R
  memoryClip : Option R
  stateClip : Option R

variable {R : Type} [LinearOrderedField R]

/-- `torch.nn.Linear` without bias: matrix-vector product over `inDim`
input coordinates. -/
def linNoBias (W : ℕ → ℕ → R) (inDim : ℕ) (x : ℕ → R) : ℕ → R :=
  fun i => ∑ j in Finset.range inDim, W i j * x j

/-- `torch.nn.Linear` with bias. -/
def linBias (W : ℕ → ℕ → R) (b : ℕ → R) (inDim : ℕ) (x : ℕ → R) : ℕ → R :=
  fun i => linNoBias W inDim x i + b i

/-- The guarded clamp of `_elmo.py` lines 206-208 and 215-219:
`if self.memory_cell_clip_value: memory = torch.clamp(memory, -c, c)`.
Python truthiness makes both `None` and `0.0` skip the clamp;
`torch.clamp(x, -c, c) = min (max x (-c)) c`. -/
def applyClip (clip : Option R) (x : R) : R :=
  match clip with
  | none => x
  | some c => if c = 0 then x else min (max x (-c)) c

/-- The forward-direction while loop of `_elmo.py` lines 164-166:
`while batch_lengths[current_length_index] <= index: current_length_index -= 1`,
run from start pointer `i`.  When the loop reaches position `0` and
`lengths 0 ≤ index` the Python code would fall through to negative list
indices; all theorems below run it only under the caller invariant
`index < lengths 0` (the batch is padded to its longest length), where the
base case is never taken with a true guard. -/
def shrinkPtr (lengths : ℕ → ℕ) (index : ℕ) : ℕ → ℕ
  | 0 => 0
  | i + 1 => if lengths (i + 1) ≤ index then shrinkPtr lengths index i else i + 1

/-- The backward-direction while loop of `_elmo.py` lines 172-174:
`while current_length_index < len(batch_lengths) - 1 and
       batch_lengths[current_length_index + 1] > index:
   current_length_index += 1`,
modelled with explicit fuel (the loop body runs at most `n - 1 - i` times,
so any fuel `≥ n` reproduces the loop exactly). -/
def growPtr (lengths : ℕ → ℕ) (n index : ℕ) : ℕ → ℕ → ℕ
  | 0, i => i
  | fuel + 1, i =>
    if i + 1 < n ∧ index < lengths (i + 1) then growPtr lengths n index fuel (i + 1)
    else i

/-- One row of the per-timestep body of `LstmCellWithProjection.forward`
(`_elmo.py` lines 185-219): the batched tensor operations there act
row-independently, so the step is embedded per row.  Given the input
vector at this timestep and the row's previous `(hidden, memory)` pair,
produce the (clipped, pre-dropout) `(timestep_output, memory)` pair:
the four gate pre-activation chunks of
`input_linearity(x) + state_linearity(h)` in the order
input, forget, candidate, output; then
`memory = input_gate * memory_init + forget_gate * previous_memory`,
the optional memory clamp, `output_gate * tanh(memory)`, the output
projection, and the optional projection clamp. -/
def rowStep (A : Act R) (p : CellParams R) (x : ℕ → R)
    (st : (ℕ → R) × (ℕ → R)) : (ℕ → R) × (ℕ → R) :=
  let projectedInput := linNoBias p.Wi p.inputSize x
  let projectedState := linBias p.Ws p.b p.hiddenSize st.1
  let gate : ℕ → ℕ → R := fun k g =>
    projectedInput (k * p.cellSize + g) + projectedState (k * p.cellSize + g)
  let inputGate : ℕ → R := fun g => A.sigmoid (gate 0 g)
  let forgetGate : ℕ → R := fun g => A.sigmoid (gate 1 g)
  let memoryInit : ℕ → R := fun g => A.tanh (gate 2 g)
  let outputGate : ℕ → R := fun g => A.sigmoid (gate 3 g)
  let memory : ℕ → R := fun g =>
    applyClip p.memoryClip (inputGate g * memoryInit g + forgetGate g * st.2 g)
  let preProjection : ℕ → R := fun g => outputGate g * A.tanh (memory g)
  let timestepOutput : ℕ → R := fun h =>
    applyClip p.stateClip (linNoBias p.Wp p.cellSize preProjection h)
  (timestepOutput, memory)

/-- The mutable loop state of `LstmCellWithProjection.forward`:
`output_accumulator` (row, time, feature), the full-batch
`previous_state` and `previous_memory` buffers (row, feature), and
`current_length_index`. -/
structure LoopState (R : Type) where
  acc : ℕ → ℕ → ℕ → R
  hidden : ℕ → ℕ → R
  memory : ℕ → ℕ → R
  ptr : ℕ

/-- One iteration of the timestep loop of `LstmCellWithProjection.forward`
(`_elmo.py` lines 151-232): pick the time index according to the
direction, move the active-sub-batch pointer with the matching while
loop, run the cell body on every active row, multiply the projected
output by the (per-call) dropout mask when one is present, and write the
new memory and (post-dropout) output back into the full-batch buffers and
the output accumulator at the active rows only. -/
def cellStep (A : Act R) (p : CellParams R) (inputs : ℕ → ℕ → ℕ → R)
    (lengths : ℕ → ℕ) (n T : ℕ) (mask : Option (ℕ → ℕ → R))
    (s : LoopState R) (timestep : ℕ) : LoopState R :=
  let index := if p.goForward then timestep else T - timestep - 1
  let ptr := if p.goForward then shrinkPtr lengths index s.ptr
             else growPtr lengths n index n s.ptr
  let newRow : ℕ → (ℕ → R) × (ℕ → R) := fun r =>
    rowStep A p (fun j => inputs r index j) (s.hidden r, s.memory r)
  let out : ℕ → ℕ → R := fun r h =>
    match mask with
    | none => (newRow r).1 h
    | some m => (newRow r).1 h * m r h
  { acc := fun r t f => if r ≤ ptr ∧ t = index then out r f else s.acc r t f
    hidden := fun r h => if r ≤ ptr then out r h else s.hidden r h
    memory := fun r g => if r ≤ ptr then (newRow r).2 g else s.memory r g
    ptr := ptr }

/-- The initial loop state of `LstmCellWithProjection.forward`
(`_elmo.py` lines 132-144): zero accumulator, zero state buffers unless
an initial `(hidden, memory)` pair is supplied, and the pointer at the
last row when going forward or the first row when going backward. -/
def initLoopState (p : CellParams R) (n : ℕ)
    (init : Option ((ℕ → ℕ → R) × (ℕ → ℕ → R))) : LoopState R :=
  { acc := fun _ _ _ => 0
    hidden := match init with | none => fun _ _ => 0 | some st => st.1
    memory := match init with | none => fun _ _ => 0 | some st => st.2
    ptr := if p.goForward then n - 1 else 0 }

/-- `LstmCellWithProjection.forward` after `t` of the `T` timesteps:
fold of `cellStep` over `0, …, t-1`. -/
def cellRun (A : Act R) (p : CellParams R) (inputs : ℕ → ℕ → ℕ → R)
    (lengths : ℕ → ℕ) (n T : ℕ) (mask : Option (ℕ → ℕ → R))
    (init : Option ((ℕ → ℕ → R) × (ℕ → ℕ → R))) (t : ℕ) : LoopState R :=
  (List.range t).foldl (cellStep A p inputs lengths n T mask) (initLoopState p n init)

/-- The complete forward pass of `LstmCellWithProjection` on a batch of
`n` rows padded to `T` timesteps, with `mask` the dropout mask in force
for the whole call (`none` when dropout is off). -/
def cellForward (A : Act R) (p : CellParams R) (inputs : ℕ → ℕ → ℕ → R)
    (lengths : ℕ → ℕ) (n T : ℕ) (mask : Option (ℕ → ℕ → R))
    (init : Option ((ℕ → ℕ → R) × (ℕ → ℕ → R))) : LoopState R :=
  cellRun A p inputs lengths n T mask init T

/-- Modelled from the spec: `get_dropout_mask` (imported in `_elmo.py`
from `fastNLP/modules/utils.py`, which is not part of the provided
sources).  The spec describes standard inverted variational dropout: a
Bernoulli keep/drop draw per coordinate, scaled by `1 / (1 - p)`, so each
mask entry is `0` (dropped) or `1 / (1 - p)` (kept). -/
def getDropoutMask (prob : R) (draw : ℕ → ℕ → Bool) : ℕ → ℕ → R :=
  fun r f => (if draw r f then 1 else 0) / (1 - prob)

/-- `LstmCellWithProjection.forward` including the dropout-mask decision
of `_elmo.py` lines 145-149: a single mask is sampled (here: computed
from the ambient random draw `draw`) once per call iff
`recurrent_dropout_probability > 0` and the module is in training mode;
otherwise no mask is applied at any timestep. -/
def cellForwardFull (A : Act R) (p : CellParams R) (inputs : ℕ → ℕ → ℕ → R)
    (lengths : ℕ → ℕ) (n T : ℕ) (prob : R) (training : Bool)
    (draw : ℕ → ℕ → Bool)
    (init : Option ((ℕ → ℕ → R) × (ℕ → ℕ → R))) : LoopState R :=
  cellForward A p inputs lengths n T
    (if 0 < prob ∧ training = true then some (getDropoutMask prob draw) else none)
    init

/-- The single-row recurrence induced by the cell when it walks a row
front to back: state after consuming positions `0, …, k-1` of row `r`. -/
def rowRun (A : Act R) (p : CellParams R) (xs : ℕ → ℕ → ℕ → R) (r : ℕ) :
    ℕ → (ℕ → R) × (ℕ → R)
  | 0 => (fun _ => 0, fun _ => 0)
  | k + 1 => rowStep A p (fun j => xs r k j) (rowRun A p xs r k)

/-- The single-row recurrence induced by the backward cell: state after
the row's first `k` activations, which consume positions
`lengths r - 1, lengths r - 2, …, lengths r - k` in that order. -/
def rowRunRev (A : Act R) (p : CellParams R) (ys : ℕ → ℕ → ℕ → R)
    (lengths : ℕ → ℕ) (r : ℕ) : ℕ → (ℕ → R) × (ℕ → R)
  | 0 => (fun _ => 0, fun _ => 0)
  | k + 1 => rowStep A p (fun j => ys r (lengths r - (k + 1)) j)
      (rowRunRev A p ys lengths r k)

/-- The sortedness contract of `LstmCellWithProjection.forward`: the
batch lengths are non-increasing over the first `n` rows. -/
def SortedDesc (lengths : ℕ → ℕ) (n : ℕ) : Prop :=
  ∀ i j, i ≤ j → j < n → lengths j ≤ lengths i

/-- What the forward-direction while loop computes: started at a pointer
`i < n` with every row beyond `i` already dead, it stops at the last row
still alive at `index`, leaving exactly the rows with
`index < lengths r` at or below the pointer. -/
theorem shrinkPtr_spec (lengths : ℕ → ℕ) (n index : ℕ)
    (hs : SortedDesc lengths n) (h0 : index < lengths 0) :
    ∀ i, i < n → (∀ j, i < j → j < n → lengths j ≤ index) →
      shrinkPtr lengths index i ≤ i ∧
      (∀ r, r ≤ shrinkPtr lengths index i → index < lengths r) ∧
      (∀ j, shrinkPtr lengths index i < j → j < n → lengths j ≤ index) := by
  intro i
  induction i with
  | zero =>
    intro _ hdead
    refine ⟨le_refl 0, ?_, ?_⟩
    · intro r hr
      have : r = 0 := Nat.le_zero.mp hr
      simpa [this, shrinkPtr] using h0
    · intro j hj hjn
      exact hdead j (by simpa [shrinkPtr] using hj) hjn
  | succ i ih =>
    intro hin hdead
    by_cases h : lengths (i + 1) ≤ index
    · have hrec := ih (Nat.lt_of_succ_lt hin) (by
        intro j hj hjn
        rcases Nat.lt_or_ge j (i + 1) with hlt | hge
        · omega
        · rcases Nat.eq_or_lt_of_le hge with rfl | hgt
          · exact h
          · exact hdead j hgt hjn)
      have hstep : shrinkPtr lengths index (i + 1) = shrinkPtr lengths index i := by
        simp [shrinkPtr, h]
      rw [hstep]
      exact ⟨le_trans hrec.1 (Nat.le_succ i), hrec.2.1, hrec.2.2⟩
    · refine ⟨by simp [shrinkPtr, h], ?_, ?_⟩
      · intro r hr
        have hr' : r ≤ i + 1 := by simpa [shrinkPtr, h] using hr
        have := hs r (i + 1) hr' hin
        omega
      · intro j hj hjn
        exact hdead j (by simpa [shrinkPtr, h] using hj) hjn

/-- What the backward-direction while loop computes when run with enough
fuel: started at a pointer `i < n` all of whose rows are alive at
`index`, it stops having picked up exactly the rows alive at `index`. -/
theorem growPtr_spec (lengths : ℕ → ℕ) (n index : ℕ)
    (hs : SortedDesc lengths n) :
    ∀ fuel i, i < n → n - 1 - i ≤ fuel →
      (∀ r, r ≤ i → index < lengths r) →
      growPtr lengths n index fuel i < n ∧
      (∀ r, r ≤ growPtr lengths n index fuel i → index < lengths r) ∧
      (∀ j, growPtr lengths n index fuel i < j → j < n → lengths j ≤ index) := by
  intro fuel
  induction fuel with
  | zero =>
    intro i hin hfuel halive
    refine ⟨by simpa [growPtr] using hin, ?_, ?_⟩
    · intro r hr
      exact halive r (by simpa [growPtr] using hr)
    · intro j hj hjn
      have hj' : i < j := by simpa [growPtr] using hj
      omega
  | succ fuel ih =>
    intro i hin hfuel halive
    by_cases h : i + 1 < n ∧ index < lengths (i + 1)
    · have hrec := ih (i + 1) h.1 (by omega) (by
        intro r hr
        rcases Nat.eq_or_lt_of_le hr with rfl | hlt
        · exact h.2
        · exact halive r (by omega))
      refine ⟨?_, ?_, ?_⟩
      · simpa [growPtr, h] using hrec.1
      · intro r hr
        exact hrec.2.1 r (by simpa [growPtr, h] using hr)
      · intro j hj hjn
        exact hrec.2.2 j (by simpa [growPtr, h] using hj) hjn
    · refine ⟨by simpa [growPtr, h] using hin, ?_, ?_⟩
      · intro r hr
        exact halive r (by simpa [growPtr, h] using hr)
      · intro j hj hjn
        have hj' : i < j := by simpa [growPtr, h] using hj
        rcases Classical.not_and_iff_or_not_not.mp h with hn | hidx
        · omega
        · have h1 : i + 1 ≤ j := hj'
          have := hs (i + 1) j h1 hjn
          omega

/-- Unfolding one iteration of the timestep loop. -/
theorem cellRun_succ (A : Act R) (p : CellParams R) (inputs : ℕ → ℕ → ℕ → R)
    (lengths : ℕ → ℕ) (n T : ℕ) (mask : Option (ℕ → ℕ → R))
    (init : Option ((ℕ → ℕ → R) × (ℕ → ℕ → R))) (t : ℕ) :
    cellRun A p inputs lengths n T mask init (t + 1) =
      cellStep A p inputs lengths n T mask
        (cellRun A p inputs lengths n T mask init t) t := by
  simp [cellRun, List.range_succ]

/-- Loop invariant of the forward-direction cell: the pointer stays in
range, every row strictly beyond it is finished, and the accumulator is
zero at and beyond every row's length. -/
theorem forward_run_zero (A : Act R) (p : CellParams R) (inputs : ℕ → ℕ → ℕ → R)
    (lengths : ℕ → ℕ) (n T : ℕ) (mask : Option (ℕ → ℕ → R))
    (init : Option ((ℕ → ℕ → R) × (ℕ → ℕ → R)))
    (hg : p.goForward = true) (hs : SortedDesc lengths n) (hn : 0 < n)
    (hT : T ≤ lengths 0) :
    ∀ t, t ≤ T →
      (cellRun A p inputs lengths n T mask init t).ptr < n ∧
      (∀ j, (cellRun A p inputs lengths n T mask init t).ptr < j → j < n →
        lengths j ≤ t) ∧
      (∀ r u f, r < n → lengths r ≤ u →
        (cellRun A p inputs lengths n T mask init t).acc r u f = 0) := by
  intro t
  induction t with
  | zero =>
    intro _
    refine ⟨?_, ?_, ?_⟩
    · simpa [cellRun, initLoopState, hg] using Nat.sub_lt hn Nat.one_pos
    · intro j hj hjn
      simp [cellRun, initLoopState, hg] at hj
      omega
    · intro r u f _ _
      simp [cellRun, initLoopState]
  | succ t ih =>
    intro ht
    have inv := ih (Nat.le_of_succ_le ht)
    have h0 : t < lengths 0 := lt_of_lt_of_le ht hT
    have hspec := shrinkPtr_spec lengths n t hs h0
      (cellRun A p inputs lengths n T mask init t).ptr inv.1
      (by intro j hj hjn; exact inv.2.1 j hj hjn)
    rw [cellRun_succ]
    refine ⟨?_, ?_, ?_⟩
    · simp only [cellStep, hg, if_true]
      exact lt_of_le_of_lt hspec.1 inv.1
    · intro j hj hjn
      simp only [cellStep, hg, if_true] at hj
      exact le_trans (hspec.2.2 j hj hjn) (Nat.le_succ t)
    · intro r u f hrn hru
      simp only [cellStep, hg, if_true]
      by_cases hw : r ≤ shrinkPtr lengths t
          (cellRun A p inputs lengths n T mask init t).ptr ∧ u = t
      · exfalso
        have := hspec.2.1 r hw.1
        omega
      · simp only [hw, if_false]
        exact inv.2.2 r u f hrn hru

/-- Loop invariant of the backward-direction cell: the pointer stays in
range, every row at or below it is still alive at the next index, and
the accumulator is zero at and beyond every row's length. -/
theorem backward_run_zero (A : Act R) (p : CellParams R) (inputs : ℕ → ℕ → ℕ → R)
    (lengths : ℕ → ℕ) (n T : ℕ) (mask : Option (ℕ → ℕ → R))
    (init : Option ((ℕ → ℕ → R) × (ℕ → ℕ → R)))
    (hg : p.goForward = false) (hs : SortedDesc lengths n) (hn : 0 < n)
    (hT : T ≤ lengths 0) :
    ∀ s, s ≤ T →
      (cellRun A p inputs lengths n T mask init s).ptr < n ∧
      (∀ r, r ≤ (cellRun A p inputs lengths n T mask init s).ptr →
        T - s ≤ lengths r) ∧
      (∀ r u f, r < n → lengths r ≤ u →
        (cellRun A p inputs lengths n T mask init s).acc r u f = 0) := by
  intro s
  induction s with
  | zero =>
    intro _
    refine ⟨?_, ?_, ?_⟩
    · simpa [cellRun, initLoopState, hg] using hn
    · intro r hr
      simp [cellRun, initLoopState, hg] at hr
      subst hr
      simpa using hT
    · intro r u f _ _
      simp [cellRun, initLoopState]
  | succ s ih =>
    intro hsT
    have inv := ih (Nat.le_of_succ_le hsT)
    have halive : ∀ r, r ≤ (cellRun A p inputs lengths n T mask init s).ptr →
        T - s - 1 < lengths r := by
      intro r hr
      have := inv.2.1 r hr
      omega
    have hspec := growPtr_spec lengths n (T - s - 1) hs n
      (cellRun A p inputs lengths n T mask init s).ptr inv.1
      (by omega) halive
    rw [cellRun_succ]
    refine ⟨?_, ?_, ?_⟩
    · simpa only [cellStep, hg, if_false, Bool.false_eq_true] using hspec.1
    · intro r hr
      simp only [cellStep, hg, Bool.false_eq_true, if_false] at hr
      have := hspec.2.1 r hr
      omega
    · intro r u f hrn hru
      simp only [cellStep, hg, Bool.false_eq_true, if_false]
      by_cases hw : r ≤ growPtr lengths n (T - s - 1) n
          (cellRun A p inputs lengths n T mask init s).ptr ∧ u = T - s - 1
      · exfalso
        have := hspec.2.1 r hw.1
        omega
      · simp only [hw, if_false]
        exact inv.2.2 r u f hrn hru

/-- C3: for every batch sorted non-increasing by length (and padded to
the length of its longest sequence, the caller invariant established by
`pad_packed_sequence`), in both the forward and the backward
configuration, every entry of the returned output accumulator at a time
position at or beyond the row's true length is exactly zero — for any
dropout mask and any initial state. -/
theorem output_zero_beyond_length (A : Act R) (p : CellParams R)
    (inputs : ℕ → ℕ → ℕ → R) (lengths : ℕ → ℕ) (n T : ℕ)
    (mask : Option (ℕ → ℕ → R))
    (init : Option ((ℕ → ℕ → R) × (ℕ → ℕ → R)))
    (hs : SortedDesc lengths n) (hn : 0 < n) (hT : T ≤ lengths 0) :
    ∀ r t f, r < n → lengths r ≤ t →
      (cellForward A p inputs lengths n T mask init).acc r t f = 0 := by
  intro r t f hrn hrt
  cases hg : p.goForward with
  | true =>
    exact (forward_run_zero A p inputs lengths n T mask init hg hs hn hT
      T (le_refl T)).2.2 r t f hrn hrt
  | false =>
    exact (backward_run_zero A p inputs lengths n T mask init hg hs hn hT
      T (le_refl T)).2.2 r t f hrn hrt

/-- Witness for `output_zero_beyond_length`: a concrete two-row batch
over `ℚ` with lengths `[2, 1]`, evaluated in the backward direction; the
short row's accumulator entry at time `1` is zero. -/
theorem output_zero_beyond_length_witness :
    (cellForward (R := ℚ) ⟨fun x => x, fun x => x⟩
        ⟨1, 1, 1, false, fun _ _ => 1, fun _ _ => 1, fun _ => 0, fun _ _ => 1,
          none, none⟩
        (fun _ _ _ => 1) (fun i => if i = 0 then 2 else 1) 2 2 none none).acc
      1 1 0 = 0 := by
  exact output_zero_beyond_length ⟨fun x => x, fun x => x⟩
    ⟨1, 1, 1, false, fun _ _ => 1, fun _ _ => 1, fun _ => 0, fun _ _ => 1,
      none, none⟩
    (fun _ _ _ => 1) (fun i => if i = 0 then 2 else 1) 2 2 none none
    (by intro i j hij hj; simp only []; split_ifs <;> omega)
    (by decide) (by decide) 1 1 0 (by decide) (by decide)

/-- Spec-side formula (spec §4.1 steps 1-2): the `k`-th `cell_size`-wide
chunk of `input_linearity(timestep_input) + state_linearity(previous_hidden)`,
the chunks being taken in the fixed order
input-gate (`k = 0`), forget-gate (`k = 1`), candidate-memory (`k = 2`),
output-gate (`k = 3`). -/
def specGatePre (p : CellParams R) (x h : ℕ → R) (k g : ℕ) : R :=
  (∑ j in Finset.range p.inputSize, p.Wi (k * p.cellSize + g) j * x j) +
    ((∑ j in Finset.range p.hiddenSize, p.Ws (k * p.cellSize + g) j * h j) +
      p.b (k * p.cellSize + g))

/-- Spec-side formula (spec §4.1 step 3):
`memory = input_gate * candidate + forget_gate * previous_memory` with
`input_gate = sigmoid(chunk 0)`, `forget_gate = sigmoid(chunk 1)`,
`candidate = tanh(chunk 2)`. -/
def specMemory (A : Act R) (p : CellParams R) (x h m : ℕ → R) (g : ℕ) : R :=
  A.sigmoid (specGatePre p x h 0 g) * A.tanh (specGatePre p x h 2 g) +
    A.sigmoid (specGatePre p x h 1 g) * m g

/-- C1: at every timestep of `LstmCellWithProjection.forward` and every
active sub-batch row, the four gate pre-activations are the four
`cell_size`-wide chunks of
`input_linearity(timestep_input) + state_linearity(previous_hidden)` in
the fixed order input, forget, candidate, output; the gates are sigmoid,
sigmoid, tanh, sigmoid of those chunks; the new memory written back is
(the optionally clamped) `input_gate * candidate + forget_gate *
previous_memory`; and (absent dropout) the output written back is the
projection of `output_gate * tanh(memory)`, optionally clamped. -/
theorem gate_equations (A : Act R) (p : CellParams R) (inputs : ℕ → ℕ → ℕ → R)
    (lengths : ℕ → ℕ) (n T : ℕ) (mask : Option (ℕ → ℕ → R))
    (s : LoopState R) (t r g : ℕ)
    (hr : r ≤ (cellStep A p inputs lengths n T mask s t).ptr) :
    (cellStep A p inputs lengths n T mask s t).memory r g =
      applyClip p.memoryClip
        (specMemory A p (fun j => inputs r (if p.goForward then t else T - t - 1) j)
          (s.hidden r) (s.memory r) g) ∧
    (mask = none →
      (cellStep A p inputs lengths n T mask s t).hidden r g =
        applyClip p.stateClip
          (∑ j in Finset.range p.cellSize, p.Wp g j *
            (A.sigmoid (specGatePre p
                (fun i => inputs r (if p.goForward then t else T - t - 1) i)
                (s.hidden r) 3 j) *
              A.tanh (applyClip p.memoryClip
                (specMemory A p
                  (fun i => inputs r (if p.goForward then t else T - t - 1) i)
                  (s.hidden r) (s.memory r) j))))) := by
  have hr' : r ≤ (if p.goForward then shrinkPtr lengths
      (if p.goForward then t else T - t - 1) s.ptr
      else growPtr lengths n (if p.goForward then t else T - t - 1) n s.ptr) := by
    simpa [cellStep] using hr
  constructor
  · simp [cellStep, hr', rowStep, specMemory, specGatePre, linNoBias, linBias]
  · intro hm
    subst hm
    simp [cellStep, hr', rowStep, specMemory, specGatePre, linNoBias, linBias]

/-- Witness for `gate_equations` at a concrete one-row instance. -/
theorem gate_equations_witness :
    (cellStep (R := ℚ) ⟨fun x => x, fun x => x⟩
        ⟨1, 1, 1, true, fun _ _ => 1, fun _ _ => 1, fun _ => 0, fun _ _ => 1,
          none, none⟩
        (fun _ _ _ => 1) (fun _ => 1) 1 1 none
        (initLoopState
          ⟨1, 1, 1, true, fun _ _ => 1, fun _ _ => 1, fun _ => 0, fun _ _ => 1,
            none, none⟩ 1 none) 0).memory 0 0 =
      applyClip (R := ℚ) none
        (specMemory ⟨fun x => x, fun x => x⟩
          ⟨1, 1, 1, true, fun _ _ => 1, fun _ _ => 1, fun _ => 0, fun _ _ => 1,
            none, none⟩
          (fun _ => 1) (fun _ => 0) (fun _ => 0) 0) := by
  exact (gate_equations ⟨fun x => x, fun x => x⟩
    ⟨1, 1, 1, true, fun _ _ => 1, fun _ _ => 1, fun _ => 0, fun _ _ => 1,
      none, none⟩
    (fun _ _ _ => 1) (fun _ => 1) 1 1 none
    (initLoopState
      ⟨1, 1, 1, true, fun _ _ => 1, fun _ _ => 1, fun _ => 0, fun _ _ => 1,
        none, none⟩ 1 none) 0 0 0 (by decide)).1

/-- A configured positive clamp magnitude really bounds the clamped
value: `torch.clamp(x, -c, c) ∈ [-c, c]` whenever `0 < c`. -/
theorem applyClip_bounds (c x : R) (hc : 0 < c) :
    -c ≤ applyClip (some c) x ∧ applyClip (some c) x ≤ c := by
  have hne : c ≠ 0 := ne_of_gt hc
  have hcc : -c ≤ c := by linarith
  constructor
  · simp only [applyClip, hne, if_false]
    exact le_min (le_max_right x (-c)) hcc
  · simp only [applyClip, hne, if_false]
    exact min_le_right _ _

/-- C7: with a configured non-zero (positive) clip value, after each
timestep every element of the memory written back to the state buffer
lies in `[-c, c]` (memory clip), and every element of the projected
timestep output — the value computed by the cell body before the
dropout multiplication — lies in `[-c, c]` (state-projection clip),
whatever the inputs. -/
theorem clip_bounds (A : Act R) (p : CellParams R) (inputs : ℕ → ℕ → ℕ → R)
    (lengths : ℕ → ℕ) (n T : ℕ) (mask : Option (ℕ → ℕ → R))
    (s : LoopState R) (t : ℕ) :
    (∀ c, p.memoryClip = some c → 0 < c →
      ∀ r g, r ≤ (cellStep A p inputs lengths n T mask s t).ptr →
        -c ≤ (cellStep A p inputs lengths n T mask s t).memory r g ∧
        (cellStep A p inputs lengths n T mask s t).memory r g ≤ c) ∧
    (∀ c, p.stateClip = some c → 0 < c →
      ∀ x st h, -c ≤ (rowStep A p x st).1 h ∧ (rowStep A p x st).1 h ≤ c) := by
  constructor
  · intro c hm hc r g hr
    have hr' : r ≤ (if p.goForward then shrinkPtr lengths
        (if p.goForward then t else T - t - 1) s.ptr
        else growPtr lengths n (if p.goForward then t else T - t - 1) n s.ptr) := by
      simpa [cellStep] using hr
    have hmem : (cellStep A p inputs lengths n T mask s t).memory r g =
        (rowStep A p (fun j => inputs r (if p.goForward then t else T - t - 1) j)
          (s.hidden r, s.memory r)).2 g := by
      simp [cellStep, hr']
    rw [hmem]
    simp only [rowStep, hm]
    exact applyClip_bounds c _ hc
  · intro c hcℓ hc x st h
    simp only [rowStep, hcℓ]
    exact applyClip_bounds c _ hc

/-- Witness for `clip_bounds`: a state-projection clip of `2` bounds the
projected output even when weights and inputs of magnitude `100` would
push it far outside `[-2, 2]` without clipping. -/
theorem clip_bounds_witness :
    -(2 : ℚ) ≤ (rowStep (R := ℚ) ⟨fun x => x, fun x => x⟩
        ⟨1, 1, 1, true, fun _ _ => 100, fun _ _ => 1, fun _ => 0, fun _ _ => 100,
          none, some 2⟩
        (fun _ => 100) (fun _ => 0, fun _ => 0)).1 0 ∧
      (rowStep (R := ℚ) ⟨fun x => x, fun x => x⟩
        ⟨1, 1, 1, true, fun _ _ => 100, fun _ _ => 1, fun _ => 0, fun _ _ => 100,
          none, some 2⟩
        (fun _ => 100) (fun _ => 0, fun _ => 0)).1 0 ≤ 2 := by
  exact (clip_bounds ⟨fun x => x, fun x => x⟩
    ⟨1, 1, 1, true, fun _ _ => 100, fun _ _ => 1, fun _ => 0, fun _ _ => 100,
      none, some 2⟩
    (fun _ _ _ => 0) (fun _ => 1) 1 1 none
    ⟨fun _ _ _ => 0, fun _ _ => 0, fun _ _ => 0, 0⟩ 0).2
    2 rfl (by norm_num) (fun _ => 100) (fun _ => 0, fun _ => 0) 0

/-- C10: Python truthiness in the clip guards means a clip magnitude of
exactly `0.0` disables clamping entirely — the whole forward call is
identical to one with the corresponding clip unset (`None`), rather than
clamping every element to `0`. -/
theorem zero_clip_is_no_clip (A : Act R) (p : CellParams R)
    (inputs : ℕ → ℕ → ℕ → R) (lengths : ℕ → ℕ) (n T : ℕ)
    (mask : Option (ℕ → ℕ → R))
    (init : Option ((ℕ → ℕ → R) × (ℕ → ℕ → R))) :
    cellForward A { p with memoryClip := some 0 } inputs lengths n T mask init =
      cellForward A { p with memoryClip := none } inputs lengths n T mask init ∧
    cellForward A { p with stateClip := some 0 } inputs lengths n T mask init =
      cellForward A { p with stateClip := none } inputs lengths n T mask init := by
  constructor
  · have hrow : rowStep A { p with memoryClip := some (0 : R) } =
        rowStep A { p with memoryClip := none } := by
      funext x st
      simp [rowStep, applyClip]
    have hstep : cellStep A { p with memoryClip := some (0 : R) } inputs lengths n T mask =
        cellStep A { p with memoryClip := none } inputs lengths n T mask := by
      funext s t
      simp only [cellStep, hrow]
    simp [cellForward, cellRun, hstep, initLoopState]
  · have hrow : rowStep A { p with stateClip := some (0 : R) } =
        rowStep A { p with stateClip := none } := by
      funext x st
      simp [rowStep, applyClip]
    have hstep : cellStep A { p with stateClip := some (0 : R) } inputs lengths n T mask =
        cellStep A { p with stateClip := none } inputs lengths n T mask := by
      funext s t
      simp only [cellStep, hrow]
    simp [cellForward, cellRun, hstep, initLoopState]

/-- C8: in a single forward call with recurrent dropout probability
`p > 0` in training mode, one dropout mask is computed for the whole
call; at every timestep the output written for an active row is the
projected (clipped) output multiplied by that same fixed, timestep-
independent mask, whose entries are `0` or `1 / (1 - p)`; and with
`p = 0` or in evaluation mode no mask is applied at any timestep. -/
theorem variational_dropout (A : Act R) (p : CellParams R)
    (inputs : ℕ → ℕ → ℕ → R) (lengths : ℕ → ℕ) (n T : ℕ)
    (init : Option ((ℕ → ℕ → R) × (ℕ → ℕ → R)))
    (prob : R) (training : Bool) (draw : ℕ → ℕ → Bool) :
    (0 < prob → training = true →
      cellForwardFull A p inputs lengths n T prob training draw init =
        cellForward A p inputs lengths n T
          (some (getDropoutMask prob draw)) init) ∧
    (prob = 0 ∨ training = false →
      cellForwardFull A p inputs lengths n T prob training draw init =
        cellForward A p inputs lengths n T none init) ∧
    (∀ m : ℕ → ℕ → R, ∀ t : ℕ, ∀ s : LoopState R, ∀ r f,
      r ≤ (cellStep A p inputs lengths n T (some m) s t).ptr →
      (cellStep A p inputs lengths n T (some m) s t).hidden r f =
        (rowStep A p (fun j => inputs r (if p.goForward then t else T - t - 1) j)
          (s.hidden r, s.memory r)).1 f * m r f ∧
      (cellStep A p inputs lengths n T (some m) s t).acc r
          (if p.goForward then t else T - t - 1) f =
        (rowStep A p (fun j => inputs r (if p.goForward then t else T - t - 1) j)
          (s.hidden r, s.memory r)).1 f * m r f) ∧
    (∀ r f, getDropoutMask prob draw r f = 0 ∨
      getDropoutMask prob draw r f = 1 / (1 - prob)) := by
  refine ⟨?_, ?_, ?_, ?_⟩
  · intro hp htr
    simp [cellForwardFull, hp, htr]
  · intro h
    have hcond : ¬(0 < prob ∧ training = true) := by
      rcases h with h | h
      · intro hc
        rw [h] at hc
        exact lt_irrefl 0 hc.1
      · intro hc
        rw [h] at hc
        exact Bool.false_ne_true hc.2
    simp [cellForwardFull, hcond]
  · intro m t s r f hr
    have hr' : r ≤ (if p.goForward then shrinkPtr lengths
        (if p.goForward then t else T - t - 1) s.ptr
        else growPtr lengths n (if p.goForward then t else T - t - 1) n s.ptr) := by
      simpa [cellStep] using hr
    constructor
    · simp [cellStep, hr']
    · simp [cellStep, hr']
  · intro r f
    cases h : draw r f with
    | false => left; simp [getDropoutMask, h]
    | true => right; simp [getDropoutMask, h]

/-- Witness for `variational_dropout` at probability `1/2` in training
mode with an all-keep draw. -/
theorem variational_dropout_witness :
    cellForwardFull (R := ℚ) ⟨fun x => x, fun x => x⟩
        ⟨1, 1, 1, true, fun _ _ => 1, fun _ _ => 1, fun _ => 0, fun _ _ => 1,
          none, none⟩
        (fun _ _ _ => 1) (fun _ => 1) 1 1 (1 / 2) true (fun _ _ => true) none =
      cellForward ⟨fun x => x, fun x => x⟩
        ⟨1, 1, 1, true, fun _ _ => 1, fun _ _ => 1, fun _ => 0, fun _ _ => 1,
          none, none⟩
        (fun _ _ _ => 1) (fun _ => 1) 1 1
        (some (getDropoutMask (1 / 2) (fun _ _ => true))) none := by
  exact (variational_dropout ⟨fun x => x, fun x => x⟩
    ⟨1, 1, 1, true, fun _ _ => 1, fun _ _ => 1, fun _ => 0, fun _ _ => 1,
      none, none⟩
    (fun _ _ _ => 1) (fun _ => 1) 1 1 none (1 / 2) true
    (fun _ _ => true)).1 (by norm_num) rfl

/-- Full characterization of the forward-direction run (dropout off, no
initial state): each row's buffers follow the single-row recurrence
truncated at the row's length, and the accumulator holds the per-step
outputs at every written position. -/
theorem forward_run_char (A : Act R) (p : CellParams R)
    (inputs : ℕ → ℕ → ℕ → R) (lengths : ℕ → ℕ) (n T : ℕ)
    (hg : p.goForward = true) (hs : SortedDesc lengths n) (hn : 0 < n)
    (hT : T ≤ lengths 0) :
    ∀ t, t ≤ T →
      (cellRun A p inputs lengths n T none none t).ptr < n ∧
      (∀ j, (cellRun A p inputs lengths n T none none t).ptr < j → j < n →
        lengths j ≤ t) ∧
      (∀ r, r < n →
        (cellRun A p inputs lengths n T none none t).hidden r =
          (rowRun A p inputs r (min t (lengths r))).1 ∧
        (cellRun A p inputs lengths n T none none t).memory r =
          (rowRun A p inputs r (min t (lengths r))).2) ∧
      (∀ r i, r < n → i < min t (lengths r) → ∀ f,
        (cellRun A p inputs lengths n T none none t).acc r i f =
          (rowRun A p inputs r (i + 1)).1 f) := by
  intro t
  induction t with
  | zero =>
    intro _
    refine ⟨?_, ?_, ?_, ?_⟩
    · simpa [cellRun, initLoopState, hg] using Nat.sub_lt hn Nat.one_pos
    · intro j hj hjn
      simp [cellRun, initLoopState, hg] at hj
      omega
    · intro r _
      constructor <;> simp [cellRun, initLoopState, rowRun]
    · intro r i _ hi
      omega
  | succ t ih =>
    intro ht
    have inv := ih (Nat.le_of_succ_le ht)
    have h0 : t < lengths 0 := lt_of_lt_of_le ht hT
    have hspec := shrinkPtr_spec lengths n t hs h0
      (cellRun A p inputs lengths n T none none t).ptr inv.1 inv.2.1
    have hiff : ∀ r, r < n →
        (r ≤ shrinkPtr lengths t (cellRun A p inputs lengths n T none none t).ptr ↔
          t < lengths r) := by
      intro r hrn
      constructor
      · exact hspec.2.1 r
      · intro hl
        by_contra hgt
        have := hspec.2.2 r (Nat.lt_of_not_le hgt) hrn
        omega
    rw [cellRun_succ]
    refine ⟨?_, ?_, ?_, ?_⟩
    · simp only [cellStep, hg, if_true]
      exact lt_of_le_of_lt hspec.1 inv.1
    · intro j hj hjn
      simp only [cellStep, hg, if_true] at hj
      exact le_trans (hspec.2.2 j hj hjn) (Nat.le_succ t)
    · intro r hrn
      have hold := inv.2.2.1 r hrn
      by_cases hact : t < lengths r
      · have hr : r ≤ shrinkPtr lengths t
            (cellRun A p inputs lengths n T none none t).ptr :=
          (hiff r hrn).mpr hact
        have hmin : min t (lengths r) = t := Nat.min_eq_left (le_of_lt hact)
        have hmin' : min (t + 1) (lengths r) = t + 1 := Nat.min_eq_left hact
        have hpair : ((cellRun A p inputs lengths n T none none t).hidden r,
            (cellRun A p inputs lengths n T none none t).memory r) =
            rowRun A p inputs r t := by
          rw [hold.1, hold.2, hmin, Prod.mk.eta]
        constructor
        · simp only [cellStep, hg, if_true]
          funext h
          simp only [hr, if_true, hpair]
          rw [hmin']
          rfl
        · simp only [cellStep, hg, if_true]
          funext g
          simp only [hr, if_true, hpair]
          rw [hmin']
          rfl
      · have hr : ¬ r ≤ shrinkPtr lengths t
            (cellRun A p inputs lengths n T none none t).ptr := by
          intro hc
          exact hact (hspec.2.1 r hc)
        have hdeadr : lengths r ≤ t := Nat.le_of_not_lt hact
        have hmin : min t (lengths r) = lengths r := Nat.min_eq_right hdeadr
        have hmin' : min (t + 1) (lengths r) = lengths r :=
          Nat.min_eq_right (le_trans hdeadr (Nat.le_succ t))
        constructor
        · simp only [cellStep, hg, if_true]
          funext h
          simp only [hr, if_false]
          rw [hmin', ← hmin, hold.1]
        · simp only [cellStep, hg, if_true]
          funext g
          simp only [hr, if_false]
          rw [hmin', ← hmin, hold.2]
    · intro r i hrn hi f
      rcases Nat.lt_or_ge i t with hit | hit
      · have hi' : i < min t (lengths r) := by
          have := Nat.lt_of_lt_of_le hi (Nat.min_le_right _ _)
          exact lt_min hit this
        have hw : ¬ (r ≤ shrinkPtr lengths t
            (cellRun A p inputs lengths n T none none t).ptr ∧ i = t) := by
          intro hc
          omega
        simp only [cellStep, hg, if_true]
        simp only [hw, if_false]
        exact inv.2.2.2 r i hrn hi' f
      · have hit' : i = t := by omega
        subst hit'
        have hact : i < lengths r := by
          have := Nat.lt_of_lt_of_le hi (Nat.min_le_right _ _)
          exact this
        have hr : r ≤ shrinkPtr lengths i
            (cellRun A p inputs lengths n T none none i).ptr :=
          (hiff r hrn).mpr hact
        have hold := inv.2.2.1 r hrn
        have hmin : min i (lengths r) = i := Nat.min_eq_left (le_of_lt hact)
        have hpair : ((cellRun A p inputs lengths n T none none i).hidden r,
            (cellRun A p inputs lengths n T none none i).memory r) =
            rowRun A p inputs r i := by
          rw [hold.1, hold.2, hmin, Prod.mk.eta]
        simp only [cellStep, hg, if_true]
        simp only [hr, and_self, if_true, hpair]
        rfl

/-- Full characterization of the backward-direction run (dropout off, no
initial state): each row's buffers follow the reversed single-row
recurrence, having consumed exactly its positions at or above the
current index, and the accumulator holds the per-activation outputs. -/
theorem backward_run_char (A : Act R) (p : CellParams R)
    (ys : ℕ → ℕ → ℕ → R) (lengths : ℕ → ℕ) (n T : ℕ)
    (hg : p.goForward = false) (hs : SortedDesc lengths n) (hn : 0 < n)
    (hT : lengths 0 = T) :
    ∀ s, s ≤ T →
      (cellRun A p ys lengths n T none none s).ptr < n ∧
      (∀ r, r ≤ (cellRun A p ys lengths n T none none s).ptr →
        T - s ≤ lengths r) ∧
      (∀ j, (cellRun A p ys lengths n T none none s).ptr < j → j < n →
        lengths j ≤ T - s) ∧
      (∀ r, r < n →
        (cellRun A p ys lengths n T none none s).hidden r =
          (rowRunRev A p ys lengths r (lengths r - (T - s))).1 ∧
        (cellRun A p ys lengths n T none none s).memory r =
          (rowRunRev A p ys lengths r (lengths r - (T - s))).2) ∧
      (∀ r i, r < n → T - s ≤ i → i < lengths r → ∀ f,
        (cellRun A p ys lengths n T none none s).acc r i f =
          (rowRunRev A p ys lengths r (lengths r - i)).1 f) := by
  intro s
  induction s with
  | zero =>
    intro _
    refine ⟨?_, ?_, ?_, ?_, ?_⟩
    · simpa [cellRun, initLoopState, hg] using hn
    · intro r hr
      simp [cellRun, initLoopState, hg] at hr
      subst hr
      simp [hT]
    · intro j hj hjn
      have := hs 0 j (Nat.zero_le j) hjn
      omega
    · intro r hrn
      have hlen : lengths r ≤ T := by
        have := hs 0 r (Nat.zero_le r) hrn
        omega
      have hz : lengths r - (T - 0) = 0 := by omega
      rw [hz]
      constructor <;> simp [cellRun, initLoopState, rowRunRev]
    · intro r i hrn hTi hi f
      have := hs 0 r (Nat.zero_le r) hrn
      omega
  | succ s ih =>
    intro hsT
    have inv := ih (Nat.le_of_succ_le hsT)
    have halive : ∀ r, r ≤ (cellRun A p ys lengths n T none none s).ptr →
        T - s - 1 < lengths r := by
      intro r hr
      have := inv.2.1 r hr
      omega
    have hspec := growPtr_spec lengths n (T - s - 1) hs n
      (cellRun A p ys lengths n T none none s).ptr inv.1 (by omega) halive
    have hiff : ∀ r, r < n →
        (r ≤ growPtr lengths n (T - s - 1) n
            (cellRun A p ys lengths n T none none s).ptr ↔
          T - s - 1 < lengths r) := by
      intro r hrn
      constructor
      · exact hspec.2.1 r
      · intro hl
        by_contra hgt
        have := hspec.2.2 r (Nat.lt_of_not_le hgt) hrn
        omega
    rw [cellRun_succ]
    refine ⟨?_, ?_, ?_, ?_, ?_⟩
    · simpa only [cellStep, hg, Bool.false_eq_true, if_false] using hspec.1
    · intro r hr
      simp only [cellStep, hg, Bool.false_eq_true, if_false] at hr
      have := hspec.2.1 r hr
      omega
    · intro j hj hjn
      simp only [cellStep, hg, Bool.false_eq_true, if_false] at hj
      have := hspec.2.2 j hj hjn
      omega
    · intro r hrn
      have hold := inv.2.2.2.1 r hrn
      have hlen : lengths r ≤ T := by
        have := hs 0 r (Nat.zero_le r) hrn
        omega
      by_cases hact : T - s - 1 < lengths r
      · have hr : r ≤ growPtr lengths n (T - s - 1) n
            (cellRun A p ys lengths n T none none s).ptr :=
          (hiff r hrn).mpr hact
        have hk : lengths r - (T - s) + 1 = lengths r - (T - (s + 1)) := by omega
        have hidx : lengths r - (lengths r - (T - s) + 1) = T - s - 1 := by omega
        have hpair : ((cellRun A p ys lengths n T none none s).hidden r,
            (cellRun A p ys lengths n T none none s).memory r) =
            rowRunRev A p ys lengths r (lengths r - (T - s)) := by
          rw [hold.1, hold.2, Prod.mk.eta]
        have hnext : rowStep A p (fun j => ys r (T - s - 1) j)
            (rowRunRev A p ys lengths r (lengths r - (T - s))) =
            rowRunRev A p ys lengths r (lengths r - (T - (s + 1))) := by
          rw [← hk]
          show _ = rowRunRev A p ys lengths r ((lengths r - (T - s)) + 1)
          rw [rowRunRev]
          rw [hidx]
        constructor
        · simp only [cellStep, hg, Bool.false_eq_true, if_false]
          funext h
          simp only [hr, if_true, hpair, hnext]
        · simp only [cellStep, hg, Bool.false_eq_true, if_false]
          funext g
          simp only [hr, if_true, hpair, hnext]
      · have hr : ¬ r ≤ growPtr lengths n (T - s - 1) n
            (cellRun A p ys lengths n T none none s).ptr := by
          intro hc
          exact hact (hspec.2.1 r hc)
        have hdeadr : lengths r ≤ T - s - 1 := Nat.le_of_not_lt hact
        have hk : lengths r - (T - s) = lengths r - (T - (s + 1)) := by omega
        constructor
        · simp only [cellStep, hg, Bool.false_eq_true, if_false]
          funext h
          simp only [hr, if_false]
          rw [← hk, hold.1]
        · simp only [cellStep, hg, Bool.false_eq_true, if_false]
          funext g
          simp only [hr, if_false]
          rw [← hk, hold.2]
    · intro r i hrn hTi hi f
      have hlen : lengths r ≤ T := by
        have := hs 0 r (Nat.zero_le r) hrn
        omega
      by_cases hidx : i = T - s - 1
      · subst hidx
        have hact : T - s - 1 < lengths r := hi
        have hr : r ≤ growPtr lengths n (T - s - 1) n
            (cellRun A p ys lengths n T none none s).ptr :=
          (hiff r hrn).mpr hact
        have hold := inv.2.2.2.1 r hrn
        have hk : lengths r - (T - s) + 1 = lengths r - (T - s - 1) := by omega
        have hidx2 : lengths r - (lengths r - (T - s) + 1) = T - s - 1 := by omega
        have hpair : ((cellRun A p ys lengths n T none none s).hidden r,
            (cellRun A p ys lengths n T none none s).memory r) =
            rowRunRev A p ys lengths r (lengths r - (T - s)) := by
          rw [hold.1, hold.2, Prod.mk.eta]
        have hnext : rowStep A p (fun j => ys r (T - s - 1) j)
            (rowRunRev A p ys lengths r (lengths r - (T - s))) =
            rowRunRev A p ys lengths r (lengths r - (T - s - 1)) := by
          rw [← hk]
          show _ = rowRunRev A p ys lengths r ((lengths r - (T - s)) + 1)
          rw [rowRunRev]
          rw [hidx2]
        simp only [cellStep, hg, Bool.false_eq_true, if_false]
        simp only [hr, and_self, if_true, hpair, hnext]
      · have hTi' : T - s ≤ i := by omega
        have hw : ¬ (r ≤ growPtr lengths n (T - s - 1) n
            (cellRun A p ys lengths n T none none s).ptr ∧ i = T - s - 1) := by
          intro hc
          exact hidx hc.2
        simp only [cellStep, hg, Bool.false_eq_true, if_false]
        simp only [hw, if_false]
        exact inv.2.2.2.2 r i hrn hTi' hi f

/-- The cell body does not read the direction flag. -/
theorem rowStep_goForward (A : Act R) (p : CellParams R) (gf : Bool) :
    rowStep A { p with goForward := gf } = rowStep A p := rfl

/-- Neither does the single-row recurrence. -/
theorem rowRun_goForward (A : Act R) (p : CellParams R) (gf : Bool)
    (xs : ℕ → ℕ → ℕ → R) (r : ℕ) :
    ∀ k, rowRun A { p with goForward := gf } xs r k = rowRun A p xs r k := by
  intro k
  induction k with
  | zero => rfl
  | succ k ih => rw [rowRun, rowRun, rowStep_goForward, ih]

/-- When `ys` holds, row by row, the reverse of `xs` over each row's
valid positions, the reversed single-row recurrence on `ys` coincides
with the plain single-row recurrence on `xs`. -/
theorem rowRunRev_eq_rowRun (A : Act R) (p : CellParams R)
    (xs ys : ℕ → ℕ → ℕ → R) (lengths : ℕ → ℕ) (r : ℕ)
    (hrev : ∀ j, j < lengths r → ∀ f, ys r j f = xs r (lengths r - 1 - j) f) :
    ∀ k, k ≤ lengths r → rowRunRev A p ys lengths r k = rowRun A p xs r k := by
  intro k
  induction k with
  | zero => intro _; rfl
  | succ k ih =>
    intro hk
    rw [rowRunRev, rowRun, ih (le_trans (Nat.le_succ k) hk)]
    have h1 : lengths r - (k + 1) < lengths r := by omega
    have h2 : lengths r - 1 - (lengths r - (k + 1)) = k := by omega
    congr 1
    funext j
    rw [hrev _ h1 j, h2]

/-- C4: with shared parameters and dropout disabled, on a batch sorted
non-increasing by length (padded to the longest length), the forward
cell's output at every valid position of every row equals the
backward cell's output on the per-row reversed batch, read back in
reverse — the traversal logic is symmetric. -/
theorem forward_backward_symmetry (A : Act R) (p : CellParams R)
    (xs ys : ℕ → ℕ → ℕ → R) (lengths : ℕ → ℕ) (n T : ℕ)
    (hg : p.goForward = true) (hs : SortedDesc lengths n) (hn : 0 < n)
    (hT : lengths 0 = T)
    (hrev : ∀ r, r < n → ∀ j, j < lengths r → ∀ f,
      ys r j f = xs r (lengths r - 1 - j) f) :
    ∀ r, r < n → ∀ t, t < lengths r → ∀ f,
      (cellForward A p xs lengths n T none none).acc r t f =
        (cellForward A { p with goForward := false } ys lengths n T none none).acc
          r (lengths r - 1 - t) f := by
  intro r hrn t ht f
  have hlen : lengths r ≤ T := by
    have := hs 0 r (Nat.zero_le r) hrn
    omega
  have hF := (forward_run_char A p xs lengths n T hg hs hn hT.ge
      T (le_refl T)).2.2.2 r t hrn
      (by rw [Nat.min_eq_right hlen]; exact ht) f
  have hB := (backward_run_char A { p with goForward := false } ys lengths n T
      rfl hs hn hT T (le_refl T)).2.2.2.2 r (lengths r - 1 - t) hrn
      (by omega) (by omega) f
  have hcnt : lengths r - (lengths r - 1 - t) = t + 1 := by omega
  rw [hcnt] at hB
  have hrw : rowRunRev A { p with goForward := false } ys lengths r (t + 1) =
      rowRun A p xs r (t + 1) := by
    rw [rowRunRev_eq_rowRun A { p with goForward := false } xs ys lengths r
      (hrev r hrn) (t + 1) ht]
    exact rowRun_goForward A p false xs r (t + 1)
  show (cellRun A p xs lengths n T none none T).acc r t f = _
  rw [hF]
  show _ = (cellRun A { p with goForward := false } ys lengths n T none none
      T).acc r (lengths r - 1 - t) f
  rw [hB, hrw]

/-- Witness for `forward_backward_symmetry` at a concrete two-row batch
over `ℚ` with lengths `[2, 1]` and a constant input (its own per-row
reversal). -/
theorem forward_backward_symmetry_witness :
    (cellForward (R := ℚ) ⟨fun x => x + 2, fun x => 3 * x⟩
        ⟨1, 1, 1, true, fun _ _ => 1, fun _ _ => 1, fun _ => 0, fun _ _ => 1,
          none, none⟩
        (fun _ _ _ => 1) (fun i => if i = 0 then 2 else 1) 2 2 none none).acc
        0 1 0 =
      (cellForward (R := ℚ) ⟨fun x => x + 2, fun x => 3 * x⟩
        { (⟨1, 1, 1, true, fun _ _ => 1, fun _ _ => 1, fun _ => 0, fun _ _ => 1,
            none, none⟩ : CellParams ℚ) with goForward := false }
        (fun _ _ _ => 1) (fun i => if i = 0 then 2 else 1) 2 2 none none).acc
        0 0 0 := by
  exact forward_backward_symmetry ⟨fun x => x + 2, fun x => 3 * x⟩
    ⟨1, 1, 1, true, fun _ _ => 1, fun _ _ => 1, fun _ => 0, fun _ _ => 1,
      none, none⟩
    (fun _ _ _ => 1) (fun _ _ _ => 1) (fun i => if i = 0 then 2 else 1) 2 2
    rfl (by intro i j hij hj; simp only []; split_ifs <;> omega)
    (by decide) (by decide) (by intro r _ j _ f; rfl)
    0 (by decide) 1 (by decide) 0

/-- One layer/direction group of the external checkpoint consumed by
`ElmobiLm.load_weights` (`_elmo.py` lines 412-470): the combined
gate matrix `W_0` stored as (input_size + hidden_size) × (4·cell_size)
in the external orientation, the gate bias `B` of length 4·cell_size,
and the projection matrix `W_P_0` in the external orientation. -/
structure TfCheckpointCell (R : Type) where
  W0 : ℕ → ℕ → R
  B : ℕ → R
  WP0 : ℕ → ℕ → R

/-- The parameters of one `LstmCellWithProjection` as populated by the
loader: `input_linearity.weight`, `state_linearity.weight`,
`state_linearity.bias`, `state_projection.weight`. -/
structure LoadedCell (R : Type) where
  inputW : ℕ → ℕ → R
  recurW : ℕ → ℕ → R
  bias : ℕ → R
  projW : ℕ → ℕ → R

/-- The row-block permutation of `_elmo.py` lines 444-447: rows
`[cell_size, 2·cell_size)` are taken from the source's rows
`[2·cell_size, 3·cell_size)` and vice versa, other rows unchanged
(the external forget/candidate blocks are swapped into this runtime's
input, forget, candidate, output order). -/
def swapGateRows (cs : ℕ) (w : ℕ → ℕ → R) : ℕ → ℕ → R :=
  fun i j =>
    if cs ≤ i ∧ i < 2 * cs then w (i + cs) j
    else if 2 * cs ≤ i ∧ i < 3 * cs then w (i - cs) j
    else w i j

/-- The same permutation on a vector (the bias of lines 459-464). -/
def swapGateVec (cs : ℕ) (v : ℕ → R) : ℕ → R :=
  fun i =>
    if cs ≤ i ∧ i < 2 * cs then v (i + cs)
    else if 2 * cs ≤ i ∧ i < 3 * cs then v (i - cs)
    else v i

/-- The per-(layer, direction) body of `ElmobiLm.load_weights`
(`_elmo.py` lines 424-470), as a pure function from the checkpoint group
to the cell parameters it installs: transpose `W_0`, split the columns
into the input half (first `input_size` columns) and the recurrent half,
swap the forget/candidate row blocks of each half (reading the swapped
blocks from the *unmutated* transposed matrix), add `1.0` to the
external forget-gate segment `[2·cell_size, 3·cell_size)` of the bias in
place before copying and swapping it, and transpose `W_P_0`. -/
def loadCellWeights (inputSize cs : ℕ) (d : TfCheckpointCell R) : LoadedCell R :=
  let tfWeights : ℕ → ℕ → R := fun i j => d.W0 j i
  let tfInputWeights : ℕ → ℕ → R := fun i j => tfWeights i j
  let tfRecurrentWeights : ℕ → ℕ → R := fun i j => tfWeights i (inputSize + j)
  let tfBias : ℕ → R := fun i =>
    if 2 * cs ≤ i ∧ i < 3 * cs then d.B i + 1 else d.B i
  { inputW := swapGateRows cs tfInputWeights
    recurW := swapGateRows cs tfRecurrentWeights
    bias := swapGateVec cs tfBias
    projW := fun i j => d.WP0 j i }

/-- C2: for every layer and direction, after `ElmobiLm.load_weights` the
runtime's input and recurrent gate weight rows in chunk 1 (forget) equal
the checkpoint's chunk 2 and the rows in chunk 2 (candidate) equal the
checkpoint's chunk 1, with the matrix transposed from the external
orientation and the recurrent half offset by `input_size` columns; the
loaded forget-gate bias segment equals the checkpoint's forget-gate
segment (chunk 2 in external order) plus `1.0`, while the candidate
segment is copied without the increment. -/
theorem load_weights_gate_permutation (inputSize cs : ℕ)
    (d : TfCheckpointCell R) (i j : ℕ) :
    (cs ≤ i → i < 2 * cs →
      (loadCellWeights inputSize cs d).inputW i j = d.W0 j (i + cs) ∧
      (loadCellWeights inputSize cs d).recurW i j = d.W0 (inputSize + j) (i + cs) ∧
      (loadCellWeights inputSize cs d).bias i = d.B (i + cs) + 1) ∧
    (2 * cs ≤ i → i < 3 * cs →
      (loadCellWeights inputSize cs d).inputW i j = d.W0 j (i - cs) ∧
      (loadCellWeights inputSize cs d).recurW i j = d.W0 (inputSize + j) (i - cs) ∧
      (loadCellWeights inputSize cs d).bias i = d.B (i - cs)) ∧
    (i < cs ∨ 3 * cs ≤ i →
      (loadCellWeights inputSize cs d).inputW i j = d.W0 j i ∧
      (loadCellWeights inputSize cs d).recurW i j = d.W0 (inputSize + j) i ∧
      (loadCellWeights inputSize cs d).bias i = d.B i) ∧
    (loadCellWeights inputSize cs d).projW i j = d.WP0 j i := by
  refine ⟨?_, ?_, ?_, ?_⟩
  · intro h1 h2
    have hc : cs ≤ i ∧ i < 2 * cs := ⟨h1, h2⟩
    have hswap : 2 * cs ≤ i + cs ∧ i + cs < 3 * cs := by omega
    refine ⟨?_, ?_, ?_⟩ <;>
      simp [loadCellWeights, swapGateRows, swapGateVec, hc, hswap]
  · intro h1 h2
    have hc1 : ¬ (cs ≤ i ∧ i < 2 * cs) := by omega
    have hc2 : cs ≤ i ∧ i < 3 * cs := by omega
    have hc2' : 2 * cs ≤ i ∧ i < 3 * cs := ⟨h1, h2⟩
    have hsub : ¬ (2 * cs ≤ i - cs ∧ i - cs < 3 * cs) := by omega
    refine ⟨?_, ?_, ?_⟩ <;>
      simp [loadCellWeights, swapGateRows, swapGateVec, hc1, hc2', hsub]
  · intro h
    have hc1 : ¬ (cs ≤ i ∧ i < 2 * cs) := by omega
    have hc2 : ¬ (2 * cs ≤ i ∧ i < 3 * cs) := by omega
    refine ⟨?_, ?_, ?_⟩ <;>
      simp [loadCellWeights, swapGateRows, swapGateVec, hc1, hc2]
  · simp [loadCellWeights]

/-- Witness for `load_weights_gate_permutation` with `cell_size = 1` and
a checkpoint whose bias holds distinct values per chunk: the loaded
forget-gate bias entry (runtime chunk 1) is the external chunk-2 value
plus one. -/
theorem load_weights_gate_permutation_witness :
    (loadCellWeights (R := ℚ) 1 1
        ⟨fun _ _ => 0, fun i => (i : ℚ) * 10, fun _ _ => 0⟩).bias 1 =
      (⟨fun _ _ => 0, fun i => (i : ℚ) * 10, fun _ _ => 0⟩ :
        TfCheckpointCell ℚ).B (1 + 1) + 1 := by
  exact ((load_weights_gate_permutation 1 1
    ⟨fun _ _ => 0, fun i => (i : ℚ) * 10, fun _ _ => 0⟩ 1 0).1
    (by decide) (by decide)).2.2

/-- A batched output sequence (row, time, feature). -/
def SeqT (R : Type) : Type := ℕ → ℕ → ℕ → R

/-- Element-wise addition of output sequences (the in-place `+=` of the
skip connection, `_elmo.py` lines 391-393). -/
def seqAdd (a b : SeqT R) : SeqT R := fun r t f => a r t f + b r t f

/-- `torch.cat([a, b], -1)` along the feature axis, `a` having feature
width `H` (`_elmo.py` lines 395-396). -/
def featConcat (H : ℕ) (a b : SeqT R) : SeqT R :=
  fun r t f => if f < H then a r t f else b r t (f - H)

/-- One layer of `ElmobiLm._lstm_forward` (`_elmo.py` lines 368-393) on
the pair of direction streams: apply the layer's forward cell to the
forward stream and its backward cell to the backward stream (each cell
abstracted to its output-sequence map — the final states the cells also
return are threaded separately by the source and do not feed the
streams), then, for every layer except layer 0, add the cached input
stream back as the skip connection. -/
def layerApply (li : ℕ) (cp : (SeqT R → SeqT R) × (SeqT R → SeqT R))
    (s : SeqT R × SeqT R) : SeqT R × SeqT R :=
  let fOut := cp.1 s.1
  let bOut := cp.2 s.2
  (if li = 0 then fOut else seqAdd fOut s.1,
   if li = 0 then bOut else seqAdd bOut s.2)

/-- The `sequence_outputs` list built by the layer loop of
`_lstm_forward`, starting at layer index `li` from the given direction
streams. -/
def stackOutputsAux (H : ℕ) :
    ℕ → List ((SeqT R → SeqT R) × (SeqT R → SeqT R)) → SeqT R × SeqT R →
      List (SeqT R)
  | _, [], _ => []
  | li, cp :: rest, s =>
    featConcat H (layerApply li cp s).1 (layerApply li cp s).2 ::
      stackOutputsAux H (li + 1) rest (layerApply li cp s)

/-- `ElmobiLm._lstm_forward`'s stacked per-layer outputs: both direction
streams start at the (padded) layer inputs (`_elmo.py` lines 362-364). -/
def stackOutputs (H : ℕ) (layers : List ((SeqT R → SeqT R) × (SeqT R → SeqT R)))
    (inputs : SeqT R) : List (SeqT R) :=
  stackOutputsAux H 0 layers (inputs, inputs)

/-- The pair of direction streams after the first `k` layers, starting
at layer index `li`. -/
def streamsAux :
    ℕ → List ((SeqT R → SeqT R) × (SeqT R → SeqT R)) → SeqT R × SeqT R → ℕ →
      SeqT R × SeqT R
  | _, _, s, 0 => s
  | _, [], s, _ + 1 => s
  | li, cp :: rest, s, k + 1 => streamsAux (li + 1) rest (layerApply li cp s) k

/-- The input streams of layer `k` in `_lstm_forward` (the streams after
its first `k` layers). -/
def stackStreams (layers : List ((SeqT R → SeqT R) × (SeqT R → SeqT R)))
    (inputs : SeqT R) (k : ℕ) : SeqT R × SeqT R :=
  streamsAux 0 layers (inputs, inputs) k

/-- Each entry of `sequence_outputs` is the feature concatenation of the
direction streams after the corresponding layer. -/
theorem stackOutputsAux_get (H : ℕ) :
    ∀ (layers : List ((SeqT R → SeqT R) × (SeqT R → SeqT R))) (li : ℕ)
      (s : SeqT R × SeqT R) (k : ℕ), k < layers.length →
      (stackOutputsAux H li layers s).get? k =
        some (featConcat H (streamsAux li layers s (k + 1)).1
          (streamsAux li layers s (k + 1)).2) := by
  intro layers
  induction layers with
  | nil =>
    intro li s k hk
    simp at hk
  | cons cp rest ih =>
    intro li s k hk
    cases k with
    | zero =>
      rw [stackOutputsAux, streamsAux, streamsAux]
      rfl
    | succ k =>
      have hk' : k < rest.length := by simpa using hk
      rw [stackOutputsAux, streamsAux]
      simpa using ih (li + 1) (layerApply li cp s) k hk'

/-- Stream evolution: the streams after `k + 1` layers are one
`layerApply` past the streams after `k` layers. -/
theorem streamsAux_succ :
    ∀ (layers : List ((SeqT R → SeqT R) × (SeqT R → SeqT R))) (li : ℕ)
      (s : SeqT R × SeqT R) (k : ℕ) (hk : k < layers.length),
      streamsAux li layers s (k + 1) =
        layerApply (li + k) (layers.get ⟨k, hk⟩) (streamsAux li layers s k) := by
  intro layers
  induction layers with
  | nil =>
    intro li s k hk
    simp at hk
  | cons cp rest ih =>
    intro li s k hk
    cases k with
    | zero =>
      rw [streamsAux, streamsAux, streamsAux]
      simp
    | succ k =>
      have hk' : k < rest.length := by simpa using hk
      rw [streamsAux]
      rw [show streamsAux li (cp :: rest) s (k + 1) =
        streamsAux (li + 1) rest (layerApply li cp s) k from by rw [streamsAux]]
      rw [ih (li + 1) (layerApply li cp s) k hk']
      have harith : li + 1 + k = li + (k + 1) := by omega
      rw [harith]
      simp

/-- Feature concatenation distributes over element-wise addition. -/
theorem featConcat_seqAdd (H : ℕ) (a a' b b' : SeqT R) :
    featConcat H (seqAdd a a') (seqAdd b b') =
      seqAdd (featConcat H a b) (featConcat H a' b') := by
  funext r t f
  simp only [featConcat, seqAdd]
  split_ifs <;> rfl

/-- C5: in `ElmobiLm._lstm_forward`, for every layer index `k ≠ 0` the
per-layer concatenated output equals the concatenation of that layer's
forward and backward cell outputs (applied to the layer's input streams)
plus, element-wise, the previous layer's concatenated output; layer 0's
output is the plain concatenation of its cell outputs with no residual. -/
theorem lstm_forward_residual (H : ℕ)
    (layers : List ((SeqT R → SeqT R) × (SeqT R → SeqT R))) (inputs : SeqT R) :
    (∀ k, (hk : k < layers.length) → k ≠ 0 → ∀ prev,
      (stackOutputs H layers inputs).get? (k - 1) = some prev →
      (stackOutputs H layers inputs).get? k =
        some (seqAdd
          (featConcat H
            ((layers.get ⟨k, hk⟩).1 (stackStreams layers inputs k).1)
            ((layers.get ⟨k, hk⟩).2 (stackStreams layers inputs k).2))
          prev)) ∧
    (∀ cp rest, layers = cp :: rest →
      (stackOutputs H layers inputs).get? 0 =
        some (featConcat H (cp.1 inputs) (cp.2 inputs))) := by
  constructor
  · intro k hk hk0 prev hprev
    have hk1 : k - 1 < layers.length := by omega
    have hA := stackOutputsAux_get H layers 0 (inputs, inputs) k hk
    have hAprev := stackOutputsAux_get H layers 0 (inputs, inputs) (k - 1) hk1
    have hk1' : k - 1 + 1 = k := by omega
    rw [hk1'] at hAprev
    rw [stackOutputs, hAprev] at hprev
    have hprev' : prev = featConcat H (streamsAux 0 layers (inputs, inputs) k).1
        (streamsAux 0 layers (inputs, inputs) k).2 :=
      (Option.some_inj.mp hprev).symm
    subst hprev'
    rw [stackOutputs, hA, streamsAux_succ layers 0 (inputs, inputs) k hk,
      Nat.zero_add]
    simp only [layerApply]
    rw [if_neg hk0, if_neg hk0, featConcat_seqAdd]
    rfl
  · intro cp rest hl
    subst hl
    rw [stackOutputs, stackOutputsAux]
    simp [layerApply]

/-- Witness for `lstm_forward_residual`: a two-layer stack of identity
cells over `ℚ`; layer 1's output is the raw concatenation plus layer 0's
output. -/
theorem lstm_forward_residual_witness :
    (stackOutputs (R := ℚ) 1
        [(fun s => s, fun s => s), (fun s => s, fun s => s)]
        (fun _ _ _ => 1)).get? 1 =
      some (seqAdd
        (featConcat 1
          (stackStreams [(fun s => s, fun s => s), (fun s => s, fun s => s)]
            (fun _ _ _ => (1 : ℚ)) 1).1
          (stackStreams [(fun s => s, fun s => s), (fun s => s, fun s => s)]
            (fun _ _ _ => (1 : ℚ)) 1).2)
        (featConcat 1 (fun _ _ _ => 1) (fun _ _ _ => 1))) := by
  exact (lstm_forward_residual 1
    [(fun s => s, fun s => s), (fun s => s, fun s => s)]
    (fun _ _ _ => 1)).1 1 (by decide) (by decide)
    (featConcat 1 (fun _ _ _ => 1) (fun _ _ _ => 1))
    (by rw [stackOutputs, stackOutputsAux]; simp [layerApply])

/-- Does `pat` occur at the head of `s`? (helper for Python's
substring containment `str.__contains__`). -/
def leadMatch : List Char → List Char → Bool
  | [], _ => true
  | _ :: _, [] => false
  | c :: cs, d :: ds => c = d && leadMatch cs ds

/-- Python `pat in s` on strings modelled as character lists: `pat`
occurs contiguously somewhere in `s`. -/
def hasSub (pat : List Char) : List Char → Bool
  | [] => pat.isEmpty
  | c :: rest => leadMatch pat (c :: rest) || hasSub pat rest

/-- The pattern `".json"` of `_elmo.py` line 723. -/
def jsonPat : List Char := ['.', 'j', 's', 'o', 'n']

/-- The pattern `".hdf5"` of `_elmo.py` line 726. -/
def hdf5Pat : List Char := ['.', 'h', 'd', 'f', '5']

/-- The mutable state of the directory scan of `_ElmoModel.__init__`
(`_elmo.py` lines 716-728): last seen config/weight file name and the
two counters. -/
structure ScanState where
  configFile : Option (List Char)
  weightFile : Option (List Char)
  configCount : ℕ
  weightCount : ℕ

/-- One file of the scan loop: a name containing `".json"` is recorded
as the config file, else a name containing `".hdf5"` as the weight file
(the `elif` makes the classification mutually exclusive). -/
def scanStep (st : ScanState) (name : List Char) : ScanState :=
  if hasSub jsonPat name then
    { st with configFile := some name, configCount := st.configCount + 1 }
  else if hasSub hdf5Pat name then
    { st with weightFile := some name, weightCount := st.weightCount + 1 }
  else st

/-- The whole directory scan (the flattened `os.walk` file listing). -/
def scanFiles (files : List (List Char)) : ScanState :=
  files.foldl scanStep ⟨none, none, 0, 0⟩

/-- The discovery contract of `_ElmoModel.__init__`
(`_elmo.py` lines 729-732): fail when more than one config or weight
file was counted, then fail when zero of either was counted, otherwise
use the recorded pair. -/
def discoverFiles (files : List (List Char)) :
    Except String (List Char × List Char) :=
  let st := scanFiles files
  if 1 < st.configCount ∨ 1 < st.weightCount then
    Except.error ("Multiple config files(*.json) or weight files(*.hdf5) detected")
  else if st.configCount = 0 ∨ st.weightCount = 0 then
    Except.error ("No config file or weight file found")
  else
    match st.configFile, st.weightFile with
    | some c, some w => Except.ok (c, w)
    | _, _ => Except.error ("unreachable")

/-- The scan's counters count exactly the files matched by the two
(mutually exclusive) patterns, and a recorded file is absent only when
its count is zero. -/
theorem scanFiles_inv :
    ∀ (files : List (List Char)) (st : ScanState),
      (files.foldl scanStep st).configCount =
        st.configCount + files.countP (fun f => hasSub jsonPat f) ∧
      (files.foldl scanStep st).weightCount =
        st.weightCount + files.countP (fun f => !hasSub jsonPat f && hasSub hdf5Pat f) ∧
      ((files.foldl scanStep st).configFile = none →
        st.configFile = none ∧ files.countP (fun f => hasSub jsonPat f) = 0) ∧
      ((files.foldl scanStep st).weightFile = none →
        st.weightFile = none ∧
          files.countP (fun f => !hasSub jsonPat f && hasSub hdf5Pat f) = 0) := by
  intro files
  induction files with
  | nil =>
    intro st
    refine ⟨by simp, by simp, ?_, ?_⟩ <;> intro h <;> simpa using h
  | cons f rest ih =>
    intro st
    by_cases hj : hasSub jsonPat f = true
    · have hstep : scanStep st f =
          { st with configFile := some f, configCount := st.configCount + 1 } := by
        simp [scanStep, hj]
      have hr := ih { st with configFile := some f, configCount := st.configCount + 1 }
      refine ⟨?_, ?_, ?_, ?_⟩
      · rw [List.foldl_cons, hstep, hr.1]
        simp [List.countP_cons, hj]
        omega
      · rw [List.foldl_cons, hstep, hr.2.1]
        simp [List.countP_cons, hj]
      · intro h
        rw [List.foldl_cons, hstep] at h
        have := (hr.2.2.1 h).1
        simp at this
      · intro h
        rw [List.foldl_cons, hstep] at h
        have := hr.2.2.2 h
        refine ⟨this.1, ?_⟩
        simpa [List.countP_cons, hj] using this.2
    · by_cases hh : hasSub hdf5Pat f = true
      · have hstep : scanStep st f =
            { st with weightFile := some f, weightCount := st.weightCount + 1 } := by
          simp [scanStep, hj, hh]
        have hr := ih { st with weightFile := some f, weightCount := st.weightCount + 1 }
        refine ⟨?_, ?_, ?_, ?_⟩
        · rw [List.foldl_cons, hstep, hr.1]
          simp [List.countP_cons, hj]
        · rw [List.foldl_cons, hstep, hr.2.1]
          simp [List.countP_cons, hj, hh]
          omega
        · intro h
          rw [List.foldl_cons, hstep] at h
          have := hr.2.2.1 h
          refine ⟨this.1, ?_⟩
          simpa [List.countP_cons, hj] using this.2
        · intro h
          rw [List.foldl_cons, hstep] at h
          have := (hr.2.2.2 h).1
          simp at this
      · have hstep : scanStep st f = st := by
          simp [scanStep, hj, hh]
        have hr := ih st
        refine ⟨?_, ?_, ?_, ?_⟩
        · rw [List.foldl_cons, hstep, hr.1]
          simp [List.countP_cons, hj]
        · rw [List.foldl_cons, hstep, hr.2.1]
          simp [List.countP_cons, hj, hh]
        · intro h
          rw [List.foldl_cons, hstep] at h
          have := hr.2.2.1 h
          refine ⟨this.1, ?_⟩
          simpa [List.countP_cons, hj] using this.2
        · intro h
          rw [List.foldl_cons, hstep] at h
          have := hr.2.2.2 h
          refine ⟨this.1, ?_⟩
          simpa [List.countP_cons, hj, hh] using this.2

/-- C9: `_ElmoModel` file discovery succeeds if and only if the
directory holds exactly one configuration file (name containing
`".json"`) and exactly one weight-checkpoint file (name containing
`".hdf5"` and not `".json"`, per the loop's `elif` classification);
it raises an immediate fatal error whenever either kind is absent or
duplicated. -/
theorem model_dir_discovery (files : List (List Char)) :
    (discoverFiles files).isOk = true ↔
      files.countP (fun f => hasSub jsonPat f) = 1 ∧
      files.countP (fun f => !hasSub jsonPat f && hasSub hdf5Pat f) = 1 := by
  have hinv := scanFiles_inv files ⟨none, none, 0, 0⟩
  have hcc : (scanFiles files).configCount =
      files.countP (fun f => hasSub jsonPat f) := by
    rw [scanFiles, hinv.1]
    simp
  have hwc : (scanFiles files).weightCount =
      files.countP (fun f => !hasSub jsonPat f && hasSub hdf5Pat f) := by
    rw [scanFiles, hinv.2.1]
    simp
  constructor
  · intro hok
    by_contra hne
    rw [discoverFiles] at hok
    by_cases h1 : 1 < (scanFiles files).configCount ∨ 1 < (scanFiles files).weightCount
    · rw [if_pos h1] at hok
      simp [Except.isOk, Except.toBool] at hok
    · rw [if_neg h1] at hok
      by_cases h2 : (scanFiles files).configCount = 0 ∨ (scanFiles files).weightCount = 0
      · rw [if_pos h2] at hok
        simp [Except.isOk, Except.toBool] at hok
      · push_neg at h1
        push_neg at h2
        exact hne ⟨by omega, by omega⟩
  · intro hcw
    rw [discoverFiles]
    have h1 : ¬ (1 < (scanFiles files).configCount ∨
        1 < (scanFiles files).weightCount) := by
      rw [hcc, hwc]
      omega
    have h2 : ¬ ((scanFiles files).configCount = 0 ∨
        (scanFiles files).weightCount = 0) := by
      rw [hcc, hwc]
      omega
    rw [if_neg h1, if_neg h2]
    cases hc : (scanFiles files).configFile with
    | none =>
      exfalso
      have := (hinv.2.2.1 hc).2
      omega
    | some c =>
      cases hw : (scanFiles files).weightFile with
      | none =>
        exfalso
        have := (hinv.2.2.2 hw).2
        omega
      | some w => rfl

/-- Witness for `model_dir_discovery`: one `.json` and one `.hdf5` file
make discovery succeed. -/
theorem model_dir_discovery_witness :
    (discoverFiles [['a', '.', 'j', 's', 'o', 'n'],
        ['b', '.', 'h', 'd', 'f', '5']]).isOk = true := by
  exact (model_dir_discovery [['a', '.', 'j', 's', 'o', 'n'],
    ['b', '.', 'h', 'd', 'f', '5']]).mpr (by decide)

/-- `seq_len = words.ne(self._pad_index).sum(dim=-1)` of `_elmo.py`
line 875: the number of non-padding word ids in row `b`. -/
def seqLenOf (padIdx maxLen : ℕ) (words : ℕ → ℕ → ℕ) (b : ℕ) : ℕ :=
  ((List.range maxLen).filter (fun t => words b t ≠ padIdx)).length

/-- The `<bos>`/`<eos>` expansion of `_elmo.py` lines 874-878: a zero
buffer of width `max_len + 2` receives the words at positions
`1 … max_len`, then position `0` is set to the `<bos>` id and position
`seq_len + 1` to the `<eos>` id (the later writes win, hence the branch
order). -/
def expandedWordsOf (padIdx bosIdx eosIdx maxLen : ℕ) (words : ℕ → ℕ → ℕ)
    (b j : ℕ) : ℕ :=
  if j = seqLenOf padIdx maxLen words b + 1 then eosIdx
  else if j = 0 then bosIdx
  else if j ≤ maxLen then words b (j - 1)
  else 0

/-- The stacked pre-strip output of `_ElmoModel.forward` in the `elmo`
encoder branch (`_elmo.py` lines 889-898): layer `0` is the raw token
embedding of the expanded words concatenated with itself along the
feature axis (width `projDim` per half), and layer `ℓ ≥ 1` is encoder
layer `ℓ - 1`, zero-padded past the encoder's actual output length
`encLen` up to `max_len + 2`.  The token embedder (`token_embedder`
applied to the expanded word ids and their character expansion, or the
cached-embedding lookup) and the `ElmobiLm` encoder (called on the token
embedding and `seq_len + 2`) are the abstract maps `TE` and `Enc`. -/
def elmoStack (padIdx bosIdx eosIdx projDim maxLen encLen : ℕ)
    (TE : (ℕ → ℕ → ℕ) → ℕ → ℕ → ℕ → R)
    (Enc : (ℕ → ℕ → ℕ → R) → (ℕ → ℕ) → ℕ → ℕ → ℕ → ℕ → R)
    (words : ℕ → ℕ → ℕ) (layer b t f : ℕ) : R :=
  let expanded := expandedWordsOf padIdx bosIdx eosIdx maxLen words
  let tokenEmbedding := TE expanded
  let encOut := Enc tokenEmbedding (fun b2 => seqLenOf padIdx maxLen words b2 + 2)
  if layer = 0 then
    (if f < projDim then tokenEmbedding b t f else tokenEmbedding b t (f - projDim))
  else if t < encLen then encOut (layer - 1) b t f
  else 0

/-- `_ElmoModel.forward` for the `elmo` encoder branch: the stacked
output after the final `encoder_output[:, :, 1:-1]` slice of `_elmo.py`
line 905 — output time position `t` reads pre-strip position `t + 1`,
dropping pre-strip positions `0` and `max_len + 1`. -/
def elmoForward (padIdx bosIdx eosIdx projDim maxLen encLen : ℕ)
    (TE : (ℕ → ℕ → ℕ) → ℕ → ℕ → ℕ → R)
    (Enc : (ℕ → ℕ → ℕ → R) → (ℕ → ℕ) → ℕ → ℕ → ℕ → ℕ → R)
    (words : ℕ → ℕ → ℕ) (layer b t f : ℕ) : R :=
  elmoStack padIdx bosIdx eosIdx projDim maxLen encLen TE Enc words
    layer b (t + 1) f

/-- Counterexample to C6: the claim says the begin- and end-of-sequence
marker positions are stripped from every layer's output, but the final
slice removes only the first and last expanded positions.  Here the
single row holds one real word (`7`) with `max_len = 2` and padding id
`0`, so `seq_len = 1` and the `<eos>` id `9` sits at expanded position
`2 = seq_len + 1 < max_len + 1`; with a token embedder returning the
word id itself, layer 0's returned output at position `1` equals `9` —
the end-of-sequence marker's embedding survives in the output (the
source comments on line 904 concede the deletion is not exact). -/
theorem elmo_eos_marker_retained :
    seqLenOf 0 2 (fun b t => if b = 0 ∧ t = 0 then 7 else 0) 0 = 1 ∧
    expandedWordsOf 0 8 9 2 (fun b t => if b = 0 ∧ t = 0 then 7 else 0) 0 2 = 9 ∧
    elmoForward (R := ℚ) 0 8 9 1 2 4
      (fun w b t _ => ((w b t : ℕ) : ℚ)) (fun _ _ _ _ _ _ => 0)
      (fun b t => if b = 0 ∧ t = 0 then 7 else 0) 0 0 1 0 = 9 := by
  refine ⟨by decide, by decide, ?_⟩
  norm_num [elmoForward, elmoStack, expandedWordsOf, seqLenOf, List.filter]

/-- C6 (amended): for the bidirectional-LM encoder branch the returned
tensor has `layers + 1` stacked layers over `max_len` time positions;
layer 0 is the raw token embedding duplicated across the forward and
backward feature halves; the final slice drops exactly the first and
last expanded positions, which always removes the begin-of-sequence
marker (position `0`), but removes the end-of-sequence marker only for
rows of full length `max_len` — for a shorter row the end-of-sequence
marker position `seq_len + 1` is retained at output position `seq_len`
in every layer. -/
theorem elmo_forward_strip (padIdx bosIdx eosIdx projDim maxLen encLen : ℕ)
    (TE : (ℕ → ℕ → ℕ) → ℕ → ℕ → ℕ → R)
    (Enc : (ℕ → ℕ → ℕ → R) → (ℕ → ℕ) → ℕ → ℕ → ℕ → ℕ → R)
    (words : ℕ → ℕ → ℕ) :
    (∀ layer b t f, t < maxLen →
      elmoForward padIdx bosIdx eosIdx projDim maxLen encLen TE Enc words
          layer b t f =
        elmoStack padIdx bosIdx eosIdx projDim maxLen encLen TE Enc words
          layer b (t + 1) f) ∧
    (∀ b t f, t < maxLen →
      elmoForward padIdx bosIdx eosIdx projDim maxLen encLen TE Enc words
          0 b t f =
        (if f < projDim then
          TE (expandedWordsOf padIdx bosIdx eosIdx maxLen words) b (t + 1) f
         else
          TE (expandedWordsOf padIdx bosIdx eosIdx maxLen words) b (t + 1)
            (f - projDim))) ∧
    (∀ b, expandedWordsOf padIdx bosIdx eosIdx maxLen words b 0 = bosIdx) ∧
    (∀ b, seqLenOf padIdx maxLen words b = maxLen →
      ∀ t, t < maxLen → t + 1 ≠ seqLenOf padIdx maxLen words b + 1) ∧
    (∀ b, seqLenOf padIdx maxLen words b < maxLen →
      expandedWordsOf padIdx bosIdx eosIdx maxLen words b
          (seqLenOf padIdx maxLen words b + 1) = eosIdx ∧
      ∀ layer f,
        elmoForward padIdx bosIdx eosIdx projDim maxLen encLen TE Enc words
            layer b (seqLenOf padIdx maxLen words b) f =
          elmoStack padIdx bosIdx eosIdx projDim maxLen encLen TE Enc words
            layer b (seqLenOf padIdx maxLen words b + 1) f) := by
  refine ⟨?_, ?_, ?_, ?_, ?_⟩
  · intro layer b t f _
    rfl
  · intro b t f _
    simp [elmoForward, elmoStack]
  · intro b
    simp [expandedWordsOf]
  · intro b _ t ht
    omega
  · intro b _
    constructor
    · simp [expandedWordsOf]
    · intro layer f
      rfl

/-- Witness for `elmo_forward_strip`: layer 0 of the concrete one-word
instance reads the duplicated token embedding at the shifted position. -/
theorem elmo_forward_strip_witness :
    elmoForward (R := ℚ) 0 8 9 1 2 4
        (fun w b t _ => ((w b t : ℕ) : ℚ)) (fun _ _ _ _ _ _ => 0)
        (fun b t => if b = 0 ∧ t = 0 then 7 else 0) 0 0 0 0 =
      (if (0 : ℕ) < 1 then
        (fun w b t _ => ((w b t : ℕ) : ℚ))
          (expandedWordsOf 0 8 9 2 (fun b t => if b = 0 ∧ t = 0 then 7 else 0))
          0 (0 + 1) 0
       else
        (fun w b t _ => ((w b t : ℕ) : ℚ))
          (expandedWordsOf 0 8 9 2 (fun b t => if b = 0 ∧ t = 0 then 7 else 0))
          0 (0 + 1) (0 - 1)) := by
  exact (elmo_forward_strip 0 8 9 1 2 4
    (fun w b t _ => ((w b t : ℕ) : ℚ)) (fun _ _ _ _ _ _ => 0)
    (fun b t => if b = 0 ∧ t = 0 then 7 else 0)).2.1 0 0 0 (by decide)

end Elmo
